import Mathlib

/-!
Shallow embedding of `pre_commit_hooks/trailing_whitespace_fixer.py`.

Byte strings are modelled as `List Nat` (one `Nat` per byte).  The relevant
byte values: 9 tab, 10 linefeed, 11 vertical tab, 12 form feed, 13 carriage
return, 32 space, 43 plus, 44 comma, 45 minus, 48..57 digits, 64 at-sign.
The optional `chars` argument of the fixer is `Option (List Nat)`
(`none` = Python `None`, i.e. default whitespace stripping).
-/

/-- Whitespace test for a single byte, as Python defines it for `bytes`
(`bytes.isspace` / default `bytes.rstrip`): space, tab, linefeed, carriage
return, vertical tab, form feed. -/
def pySpace (b : Nat) : Bool :=
  b == 32 || b == 9 || b == 10 || b == 13 || b == 11 || b == 12

/-- Byte-stripping predicate induced by the `chars` argument: with `none`
strip default whitespace, with `some cs` strip exactly the members of `cs`. -/
def stripPred (chars : Option (List Nat)) (b : Nat) : Bool :=
  match chars with
  | none => pySpace b
  | some cs => cs.contains b

/-- Python `line.rstrip(chars)`: remove the maximal run of trailing bytes
satisfying `stripPred chars`. -/
def rstrip (chars : Option (List Nat)) (l : List Nat) : List Nat :=
  ((l.reverse).dropWhile (stripPred chars)).reverse

/-- Python `line.isspace()`: nonempty and every byte is whitespace. -/
def isspace (l : List Nat) : Bool :=
  !l.isEmpty && l.all pySpace

/-- Python `l.endswith(suf)`. -/
def endsWith (suf l : List Nat) : Bool :=
  l.drop (l.length - suf.length) == suf

/-- The end-of-line detection of `_process_line` (lines 69-76 of the
source): test for a trailing CRLF, then a trailing LF, else no marker;
return the line content without the marker, together with the marker. -/
def splitEol (line : List Nat) : List Nat × List Nat :=
  if endsWith [13, 10] line then (line.take (line.length - 2), [13, 10])
  else if endsWith [10] line then (line.take (line.length - 1), [10])
  else (line, [])

/-- Python `_process_line(line, is_markdown, chars)` (source lines 68-80):
split off the EOL marker; if `is_markdown` and the content is not all
whitespace and ends with two spaces, strip `chars` from the content minus
its last two bytes and reattach the two spaces; otherwise strip `chars`
from the whole content; reattach the EOL marker. -/
def processLine (line : List Nat) (is_markdown : Bool) (chars : Option (List Nat)) : List Nat :=
  if is_markdown && !(isspace (splitEol line).1) && endsWith [32, 32] (splitEol line).1 then
    rstrip chars ((splitEol line).1.take ((splitEol line).1.length - 2)) ++ [32, 32] ++ (splitEol line).2
  else
    rstrip chars (splitEol line).1 ++ (splitEol line).2

/-- The per-line loop of `_fix_file` (source lines 50-59), with the running
1-based index `i` made explicit: a line is processed when the restriction
is `none` ("all lines") or its index is a member of the restriction;
otherwise it is passed through unchanged.  The second component is the
`changed` flag: whether some processed line differs from its input. -/
def fixLinesGo (is_markdown : Bool) (chars : Option (List Nat))
    (restrict : Option (List Nat)) : Nat → List (List Nat) → List (List Nat) × Bool
  | _, [] => ([], false)
  | i, line :: rest =>
    let tail := fixLinesGo is_markdown chars restrict (i + 1) rest
    if (match restrict with | none => true | some s => s.contains i) then
      let nl := processLine line is_markdown chars
      (nl :: tail.1, (nl != line) || tail.2)
    else
      (line :: tail.1, tail.2)

/-- The Line Rewriter: the loop of `_fix_file` started at line number 1. -/
def fixLines (lines : List (List Nat)) (is_markdown : Bool)
    (chars : Option (List Nat)) (restrict : Option (List Nat)) : List (List Nat) × Bool :=
  fixLinesGo is_markdown chars restrict 1 lines

/-- Python `_fix_file` (source lines 34-65), with the file I/O made
explicit: `changedLines` is the set produced by the Changed-Line
Extractor, `lines` the file content read by `readlines`.  The result's
first component is the content written back (`none` = no write happens),
the second the returned flag.  When `changed_only` is set and the
extractor's set is empty, the function returns `false` before touching
the file. -/
def fixFile (changed_only : Bool) (changedLines : List Nat)
    (lines : List (List Nat)) (is_markdown : Bool)
    (chars : Option (List Nat)) : Option (List (List Nat)) × Bool :=
  if changed_only && changedLines.isEmpty then (none, false)
  else
    let restrict := if changed_only then some changedLines else none
    let r := fixLines lines is_markdown chars restrict
    if r.2 then (some r.1, true) else (none, false)

/-- Digit test for a byte (ASCII 48..57), as `\d` matches it in the hunk
regular expression. -/
def isDigitB (b : Nat) : Bool :=
  48 ≤ b && b ≤ 57

/-- Consume a run of digit bytes, accumulating their decimal value. -/
def parseNatAux : List Nat → Nat → Nat × List Nat
  | [], acc => (acc, [])
  | c :: cs, acc =>
    if isDigitB c then parseNatAux cs (acc * 10 + (c - 48)) else (acc, c :: cs)

/-- Consume one or more digit bytes (the `\d+` of the hunk pattern);
fails when the input does not start with a digit. -/
def parseDigits : List Nat → Option (Nat × List Nat)
  | [] => none
  | c :: cs => if isDigitB c then some (parseNatAux cs (c - 48)) else none

/-- Consume a literal byte sequence; fails on mismatch. -/
def dropLit : List Nat → List Nat → Option (List Nat)
  | [], s => some s
  | _ :: _, [] => none
  | t :: ts, c :: cs => if c == t then dropLit ts cs else none

/-- The optional `(?:,(\d+))?` group of the hunk pattern.  Because the
byte required right after the group is a space, never a comma, the
backtracking regular-expression semantics is deterministic here: the
group matches exactly when a comma followed by a digit is present, and a
comma not followed by a digit makes the whole match fail. -/
def parseOptNum : List Nat → Option (Option Nat × List Nat)
  | 44 :: rest =>
    (match parseDigits rest with
     | some (n, r) => some (some n, r)
     | none => none)
  | s => some (none, s)

/-- Match of the hunk-header pattern
`@@ -\d+(?:,\d+)? \+(\d+)(?:,(\d+))? @@` (source line 24) against the
start of a line (Python `re.match`: trailing bytes after the final `@@`
are allowed).  Returns the captured new-side start and count, the count
defaulting to 1 when its group is absent (source line 29). -/
def parseHunkHeader (line : List Nat) : Option (Nat × Nat) :=
  match dropLit [64, 64, 32, 45] line with
  | none => none
  | some r1 =>
    match parseDigits r1 with
    | none => none
    | some (_, r2) =>
      match parseOptNum r2 with
      | none => none
      | some (_, r3) =>
        match dropLit [32, 43] r3 with
        | none => none
        | some r4 =>
          match parseDigits r4 with
          | none => none
          | some (start, r5) =>
            match parseOptNum r5 with
            | none => none
            | some (cnt?, r6) =>
              match dropLit [32, 64, 64] r6 with
              | none => none
              | some _ =>
                some (start, match cnt? with | some c => c | none => 1)

/-- Python `range(start, start + count)` as a list: the new-side line
numbers of one hunk. -/
def hunkLines (start count : Nat) : List Nat :=
  (List.range count).map (start + ·)

/-- The parsing loop of `get_changed_lines` (source lines 24-31): for every
line of the diff output that matches the hunk pattern, add the hunk's
new-side line numbers; ignore every other line.  The Python set is
modelled as a list with membership semantics. -/
def changedLinesOfDiff (diffLines : List (List Nat)) : List Nat :=
  diffLines.foldr
    (fun l acc =>
      match parseHunkHeader l with
      | some p => hunkLines p.1 p.2 ++ acc
      | none => acc)
    []

/-- Python `get_changed_lines` (source lines 10-31), with the subprocess
outcome injected: `Except.error code` models `git diff` exiting with the
nonzero status `code` (which `check=True` turns into a
`CalledProcessError`), in which case the empty set is returned;
`Except.ok diffLines` models a successful run whose standard output has
been split into lines. -/
def get_changed_lines (diff : Except Nat (List (List Nat))) : List Nat :=
  match diff with
  | Except.error _ => []
  | Except.ok diffLines => changedLinesOfDiff diffLines

/-- Content transformation of `_process_line`, factored out of its two
return statements: what the function computes before reattaching the
end-of-line marker. -/
def stripBody (c : List Nat) (is_markdown : Bool) (chars : Option (List Nat)) : List Nat :=
  if is_markdown && !(isspace c) && endsWith [32, 32] c then
    rstrip chars (c.take (c.length - 2)) ++ [32, 32]
  else
    rstrip chars c

/-- Head of a `dropWhile` result falsifies the predicate. -/
theorem dropWhile_head_false (p : Nat → Bool) :
    ∀ (l : List Nat) (b : Nat) (t : List Nat), l.dropWhile p = b :: t → p b = false := by
  intro l
  induction l with
  | nil => intro b t h; simp [List.dropWhile] at h
  | cons a l ih =>
    intro b t h
    rw [List.dropWhile_cons] at h
    cases hpa : p a with
    | true => rw [hpa] at h; simp at h; exact ih b t h
    | false => rw [hpa] at h; simp at h; obtain ⟨rfl, rfl⟩ := h; exact hpa

/-- Applying `dropWhile` twice equals applying it once. -/
theorem dropWhile_idem (p : Nat → Bool) (l : List Nat) :
    (l.dropWhile p).dropWhile p = l.dropWhile p := by
  cases h : l.dropWhile p with
  | nil => simp
  | cons b t =>
    rw [List.dropWhile_cons, dropWhile_head_false p l b t h]
    simp

/-- Decomposition of `rstrip`: the input is the output followed by a run
of bytes each satisfying the strip predicate. -/
theorem rstrip_decomp (ch : Option (List Nat)) (l : List Nat) :
    ∃ t, l = rstrip ch l ++ t ∧ ∀ b ∈ t, stripPred ch b = true := by
  refine ⟨(l.reverse.takeWhile (stripPred ch)).reverse, ?_, ?_⟩
  · unfold rstrip
    rw [← List.reverse_append, List.takeWhile_append_dropWhile, List.reverse_reverse]
  · intro b hb
    rw [List.mem_reverse] at hb
    exact List.mem_takeWhile_imp hb

/-- The last byte of an `rstrip` result falsifies the strip predicate. -/
theorem rstrip_last (ch : Option (List Nat)) (l ys : List Nat) (b : Nat)
    (h : rstrip ch l = ys ++ [b]) : stripPred ch b = false := by
  unfold rstrip at h
  have h2 := congrArg List.reverse h
  rw [List.reverse_reverse, List.reverse_append] at h2
  simp at h2
  exact dropWhile_head_false _ _ _ _ h2

/-- Stripping an already-stripped list changes nothing. -/
theorem rstrip_idem (ch : Option (List Nat)) (l : List Nat) :
    rstrip ch (rstrip ch l) = rstrip ch l := by
  unfold rstrip
  rw [List.reverse_reverse, dropWhile_idem]

/-- A list all of whose bytes satisfy the strip predicate strips to nil. -/
theorem rstrip_eq_nil (ch : Option (List Nat)) (l : List Nat)
    (h : ∀ b ∈ l, stripPred ch b = true) : rstrip ch l = [] := by
  unfold rstrip
  have h2 : l.reverse.dropWhile (stripPred ch) = [] :=
    List.dropWhile_eq_nil_iff.mpr (fun x hx => h x (List.mem_reverse.mp hx))
  rw [h2]
  rfl

/-- A byte the strip predicate does not hit survives `rstrip`. -/
theorem mem_rstrip_of_not_strip (ch : Option (List Nat)) (l : List Nat) (b : Nat)
    (hb : b ∈ l) (hf : stripPred ch b = false) : b ∈ rstrip ch l := by
  obtain ⟨t, hdec, ht⟩ := rstrip_decomp ch l
  rw [hdec] at hb
  rcases List.mem_append.mp hb with h | h
  · exact h
  · have := ht b h
    rw [hf] at this
    exact absurd this Bool.false_ne_true

/-- Characterisation of `endsWith`. -/
theorem endsWith_iff (suf l : List Nat) : endsWith suf l = true ↔ ∃ s, l = s ++ suf := by
  unfold endsWith
  rw [beq_iff_eq]
  constructor
  · intro h
    refine ⟨l.take (l.length - suf.length), ?_⟩
    conv_lhs => rw [← List.take_append_drop (l.length - suf.length) l]
    rw [h]
  · rintro ⟨s, rfl⟩
    rw [List.length_append]
    have h2 : s.length + suf.length - suf.length = s.length := by omega
    rw [h2, List.drop_left]

/-- Removing a known trailing block with `take` recovers the front part. -/
theorem take_of_endsWith (suf l s : List Nat) (h : l = s ++ suf) :
    l.take (l.length - suf.length) = s := by
  subst h
  rw [List.length_append]
  have h2 : s.length + suf.length - suf.length = s.length := by omega
  rw [h2, List.take_left]

/-- Splitting a line built from a content block and a CRLF marker. -/
theorem splitEol_crlf (x : List Nat) : splitEol (x ++ [13, 10]) = (x, [13, 10]) := by
  unfold splitEol
  rw [if_pos ((endsWith_iff [13, 10] (x ++ [13, 10])).mpr ⟨x, rfl⟩)]
  rw [show (2 : Nat) = ([13, 10] : List Nat).length from rfl]
  rw [take_of_endsWith [13, 10] (x ++ [13, 10]) x rfl]

/-- Splitting a line built from a content block not ending in a carriage
return and an LF marker. -/
theorem splitEol_lf (x : List Nat) (hx : x.getLast? ≠ some 13) :
    splitEol (x ++ [10]) = (x, [10]) := by
  have h1 : endsWith [13, 10] (x ++ [10]) = false := by
    rw [Bool.eq_false_iff]
    intro hc
    obtain ⟨s, hs⟩ := (endsWith_iff [13, 10] (x ++ [10])).mp hc
    have h2 : x ++ [10] = (s ++ [13]) ++ [10] := by rw [hs]; simp
    have h3 : x = s ++ [13] := List.append_cancel_right h2
    rw [h3, List.getLast?_concat] at hx
    exact hx rfl
  unfold splitEol
  rw [h1]
  simp only [Bool.false_eq_true, if_false]
  rw [if_pos ((endsWith_iff [10] (x ++ [10])).mpr ⟨x, rfl⟩)]
  rw [show (1 : Nat) = ([10] : List Nat).length from rfl]
  rw [take_of_endsWith [10] (x ++ [10]) x rfl]

/-- Splitting a line not ending in a linefeed yields the empty marker. -/
theorem splitEol_no_eol (x : List Nat) (hx : x.getLast? ≠ some 10) :
    splitEol x = (x, []) := by
  have h1 : endsWith [13, 10] x = false := by
    rw [Bool.eq_false_iff]
    intro hc
    obtain ⟨s, hs⟩ := (endsWith_iff [13, 10] x).mp hc
    have h2 : x = (s ++ [13]) ++ [10] := by rw [hs]; simp
    rw [h2, List.getLast?_concat] at hx
    exact hx rfl
  have h2 : endsWith [10] x = false := by
    rw [Bool.eq_false_iff]
    intro hc
    obtain ⟨s, hs⟩ := (endsWith_iff [10] x).mp hc
    rw [hs, List.getLast?_concat] at hx
    exact hx rfl
  unfold splitEol
  rw [h1, h2]
  simp

/-- The detected marker is one of CRLF, LF, none. -/
theorem splitEol_eol_cases (l : List Nat) :
    (splitEol l).2 = [13, 10] ∨ (splitEol l).2 = [10] ∨ (splitEol l).2 = [] := by
  unfold splitEol
  by_cases h1 : endsWith [13, 10] l = true
  · rw [if_pos h1]; left; rfl
  · rw [if_neg h1]
    by_cases h2 : endsWith [10] l = true
    · rw [if_pos h2]; right; left; rfl
    · rw [if_neg h2]; right; right; rfl

/-- Content and marker reassemble to the original line. -/
theorem splitEol_append (l : List Nat) : (splitEol l).1 ++ (splitEol l).2 = l := by
  unfold splitEol
  by_cases h1 : endsWith [13, 10] l = true
  · obtain ⟨s, hs⟩ := (endsWith_iff [13, 10] l).mp h1
    rw [if_pos h1]
    rw [show (2 : Nat) = ([13, 10] : List Nat).length from rfl]
    rw [take_of_endsWith [13, 10] l s hs, ← hs]
  · rw [if_neg h1]
    by_cases h2 : endsWith [10] l = true
    · obtain ⟨s, hs⟩ := (endsWith_iff [10] l).mp h2
      rw [if_pos h2]
      rw [show (1 : Nat) = ([10] : List Nat).length from rfl]
      rw [take_of_endsWith [10] l s hs, ← hs]
    · rw [if_neg h2]
      simp

/-- The body of `_process_line` computes `stripBody` on the content and
reattaches the marker. -/
theorem processLine_decomp (line : List Nat) (md : Bool) (ch : Option (List Nat)) :
    processLine line md ch = stripBody (splitEol line).1 md ch ++ (splitEol line).2 := by
  unfold processLine stripBody
  by_cases h : (md && !(isspace (splitEol line).1) && endsWith [32, 32] (splitEol line).1) = true
  · rw [if_pos h, if_pos h, List.append_assoc]
  · rw [if_neg h, if_neg h]

/-- Definitional unfolding of the strip predicate at the default policy. -/
theorem stripPred_none (b : Nat) : stripPred none b = pySpace b := rfl

/-- A list failing `all` has a witness falsifying the predicate. -/
theorem all_eq_false_exists (l : List Nat) (p : Nat → Bool) (h : l.all p = false) :
    ∃ x ∈ l, p x = false := by
  have h2 : ¬(∀ x ∈ l, p x = true) := by
    intro hall
    rw [List.all_eq_true.mpr hall] at h
    exact absurd h (by decide)
  push_neg at h2
  obtain ⟨x, hx, hpx⟩ := h2
  exact ⟨x, hx, Bool.eq_false_iff.mpr hpx⟩

/-- A non-whitespace member forces `isspace` to be false. -/
theorem isspace_eq_false_of_mem (x : List Nat) (b : Nat) (hb : b ∈ x)
    (hf : pySpace b = false) : isspace x = false := by
  unfold isspace
  have h2 : x.all pySpace = false := by
    rw [Bool.eq_false_iff]
    intro hall
    have h3 := List.all_eq_true.mp hall b hb
    rw [hf] at h3
    exact Bool.false_ne_true h3
  rw [h2]
  simp

/-- A content block that is not all whitespace but ends with two spaces
contains a non-whitespace byte. -/
theorem exists_not_space (c : List Nat) (hns : isspace c = false)
    (hend : endsWith [32, 32] c = true) : ∃ b ∈ c, pySpace b = false := by
  obtain ⟨s, hs⟩ := (endsWith_iff [32, 32] c).mp hend
  have hne : c.isEmpty = false := by rw [hs]; simp
  unfold isspace at hns
  rw [hne] at hns
  simp only [Bool.not_false, Bool.true_and] at hns
  exact all_eq_false_exists c pySpace hns

/-- The result of a default-whitespace `rstrip` never ends with two
spaces. -/
theorem rstrip_none_not_ends_space (c : List Nat)
    (h : endsWith [32, 32] (rstrip none c) = true) : False := by
  obtain ⟨s, hs⟩ := (endsWith_iff [32, 32] (rstrip none c)).mp h
  have h2 : rstrip none c = (s ++ [32]) ++ [32] := by rw [hs]; simp
  have h3 := rstrip_last none c (s ++ [32]) 32 h2
  exact absurd h3 (by decide)

/-- The last byte of a default-policy `stripBody` result is neither a
carriage return nor a linefeed. -/
theorem stripBody_none_last (c : List Nat) (md : Bool) (ys : List Nat) (b : Nat)
    (h : stripBody c md none = ys ++ [b]) : b ≠ 13 ∧ b ≠ 10 := by
  unfold stripBody at h
  by_cases hg : (md && !(isspace c) && endsWith [32, 32] c) = true
  · rw [if_pos hg] at h
    have h2 : (rstrip none (c.take (c.length - 2)) ++ [32]) ++ [32] = ys ++ [b] := by
      rw [← h]
      simp
    have h3 := congrArg List.getLast? h2
    rw [List.getLast?_concat, List.getLast?_concat] at h3
    have hb : b = 32 := (Option.some.inj h3).symm
    subst hb
    exact ⟨by decide, by decide⟩
  · rw [if_neg hg] at h
    have h2 := rstrip_last none c ys b h
    rw [stripPred_none] at h2
    constructor
    · intro hb; subst hb; exact absurd h2 (by decide)
    · intro hb; subst hb; exact absurd h2 (by decide)

/-- Unpacking of the Markdown-branch guard. -/
theorem guard_split (md : Bool) (c : List Nat)
    (hg : (md && !(isspace c) && endsWith [32, 32] c) = true) :
    md = true ∧ isspace c = false ∧ endsWith [32, 32] c = true := by
  simp only [Bool.and_eq_true, Bool.not_eq_true'] at hg
  exact ⟨hg.1.1, hg.1.2, hg.2⟩

/-- Idempotence of `stripBody` under the default whitespace policy. -/
theorem stripBody_none_idem (c : List Nat) (md : Bool) :
    stripBody (stripBody c md none) md none = stripBody c md none := by
  by_cases hg : (md && !(isspace c) && endsWith [32, 32] c) = true
  · obtain ⟨hmd, hnsp, hend⟩ := guard_split md c hg
    obtain ⟨s, hs⟩ := (endsWith_iff [32, 32] c).mp hend
    have htake : c.take (c.length - 2) = s := by
      rw [show (2 : Nat) = ([32, 32] : List Nat).length from rfl]
      exact take_of_endsWith [32, 32] c s hs
    have hx : stripBody c md none = rstrip none s ++ [32, 32] := by
      unfold stripBody
      rw [if_pos hg, htake]
    obtain ⟨b, hbc, hbf⟩ := exists_not_space c hnsp hend
    have hbs : b ∈ s := by
      rw [hs] at hbc
      rcases List.mem_append.mp hbc with h | h
      · exact h
      · simp at h
        subst h
        exact absurd hbf (by decide)
    have hbr : b ∈ rstrip none s := by
      apply mem_rstrip_of_not_strip none s b hbs
      rw [stripPred_none]
      exact hbf
    have hg2 : (md && !(isspace (rstrip none s ++ [32, 32])) &&
        endsWith [32, 32] (rstrip none s ++ [32, 32])) = true := by
      rw [hmd]
      rw [isspace_eq_false_of_mem _ b (List.mem_append.mpr (Or.inl hbr)) hbf]
      rw [(endsWith_iff [32, 32] (rstrip none s ++ [32, 32])).mpr ⟨rstrip none s, rfl⟩]
      rfl
    rw [hx]
    unfold stripBody
    rw [if_pos hg2]
    have htake2 : (rstrip none s ++ [32, 32]).take ((rstrip none s ++ [32, 32]).length - 2) =
        rstrip none s := by
      rw [show (2 : Nat) = ([32, 32] : List Nat).length from rfl]
      exact take_of_endsWith [32, 32] (rstrip none s ++ [32, 32]) (rstrip none s) rfl
    rw [htake2, rstrip_idem]
  · have hx : stripBody c md none = rstrip none c := by
      unfold stripBody
      rw [if_neg hg]
    rw [hx]
    have hg2 : ¬((md && !(isspace (rstrip none c)) && endsWith [32, 32] (rstrip none c)) = true) := by
      intro h2
      obtain ⟨_, _, hend2⟩ := guard_split md (rstrip none c) h2
      exact rstrip_none_not_ends_space c hend2
    unfold stripBody
    rw [if_neg hg2]
    exact rstrip_idem none c

/-- Re-detecting the end of a default-policy processed line recovers the
stripped content and the original marker. -/
theorem splitEol_processLine_none (line : List Nat) (md : Bool) :
    splitEol (processLine line md none) =
      (stripBody (splitEol line).1 md none, (splitEol line).2) := by
  rw [processLine_decomp]
  rcases splitEol_eol_cases line with h | h | h
  · rw [h]
    exact splitEol_crlf _
  · rw [h]
    apply splitEol_lf
    rcases List.eq_nil_or_concat (stripBody (splitEol line).1 md none) with hn | ⟨ys, b, hc⟩
    · rw [hn]
      simp
    · rw [List.concat_eq_append] at hc
      rw [hc, List.getLast?_concat]
      have h13 := stripBody_none_last (splitEol line).1 md ys b hc
      intro hcontra
      exact h13.1 (Option.some.inj hcontra)
  · rw [h, List.append_nil]
    apply splitEol_no_eol
    rcases List.eq_nil_or_concat (stripBody (splitEol line).1 md none) with hn | ⟨ys, b, hc⟩
    · rw [hn]
      simp
    · rw [List.concat_eq_append] at hc
      rw [hc, List.getLast?_concat]
      have h10 := stripBody_none_last (splitEol line).1 md ys b hc
      intro hcontra
      exact h10.2 (Option.some.inj hcontra)

/-- Processing a line twice under the default policy equals processing it
once. -/
theorem processLine_none_idem (line : List Nat) (md : Bool) :
    processLine (processLine line md none) md none = processLine line md none := by
  rw [processLine_decomp (processLine line md none), splitEol_processLine_none]
  show stripBody (stripBody (splitEol line).1 md none) md none ++ (splitEol line).2 =
    processLine line md none
  rw [stripBody_none_idem, ← processLine_decomp]

/-- With no restriction set, the rewriter loop maps the line transform over
every line and reports whether some line moved. -/
theorem fixLinesGo_none (md : Bool) (ch : Option (List Nat)) :
    ∀ (i : Nat) (L : List (List Nat)),
      fixLinesGo md ch none i L =
        (L.map (fun l => processLine l md ch),
         L.any (fun l => processLine l md ch != l)) := by
  intro i L
  induction L generalizing i with
  | nil => rfl
  | cons hd tl ih =>
    simp only [fixLinesGo]
    rw [ih (i + 1)]
    simp [List.any_cons]

/-- Mapping the default-policy transform over already-transformed lines
changes nothing and flags nothing. -/
theorem fixLines_none_idem_aux (md : Bool) (L : List (List Nat)) :
    (L.map (fun l => processLine l md none)).map (fun l => processLine l md none) =
      L.map (fun l => processLine l md none) ∧
    (L.map (fun l => processLine l md none)).any
        (fun l => processLine l md none != l) = false := by
  induction L with
  | nil => exact ⟨rfl, rfl⟩
  | cons hd tl ih =>
    constructor
    · simp only [List.map_cons]
      rw [processLine_none_idem, ih.1]
    · simp only [List.map_cons, List.any_cons]
      rw [processLine_none_idem, ih.2]
      simp

/-- Characterisation of the rewriter loop under a restriction set, for an
arbitrary starting index: the output has the same length, a line at
offset `k` is transformed exactly when `i + k` is in the set and passed
through unchanged otherwise, and the changed flag holds exactly when some
selected line moves. -/
theorem fixLinesGo_some (md : Bool) (ch : Option (List Nat)) (s : List Nat) :
    ∀ (L : List (List Nat)) (i : Nat),
      (fixLinesGo md ch (some s) i L).1.length = L.length ∧
      (∀ k, k < L.length →
        (fixLinesGo md ch (some s) i L).1.getD k [] =
          if s.contains (i + k) then processLine (L.getD k []) md ch else L.getD k []) ∧
      ((fixLinesGo md ch (some s) i L).2 = true ↔
        ∃ k, k < L.length ∧ s.contains (i + k) = true ∧
          processLine (L.getD k []) md ch ≠ L.getD k []) := by
  intro L
  induction L with
  | nil =>
    intro i
    refine ⟨rfl, ?_, ?_⟩
    · intro k hk
      simp at hk
    · constructor
      · intro h
        simp [fixLinesGo] at h
      · rintro ⟨k, hk, -, -⟩
        simp at hk
  | cons hd tl ih =>
    intro i
    obtain ⟨ih1, ih2, ih3⟩ := ih (i + 1)
    by_cases hc : s.contains i = true
    · have hmem : i ∈ s := by simpa using hc
      have hunf : fixLinesGo md ch (some s) i (hd :: tl) =
          (processLine hd md ch :: (fixLinesGo md ch (some s) (i + 1) tl).1,
           (processLine hd md ch != hd) || (fixLinesGo md ch (some s) (i + 1) tl).2) := by
        simp [fixLinesGo, hmem]
      refine ⟨?_, ?_, ?_⟩
      · rw [hunf]
        simp [ih1]
      · intro k hk
        rw [hunf]
        cases k with
        | zero => simp [hmem]
        | succ k =>
          have hk' : k < tl.length := by simpa using hk
          have e1 : (processLine hd md ch ::
              (fixLinesGo md ch (some s) (i + 1) tl).1).getD (k + 1) [] =
              (fixLinesGo md ch (some s) (i + 1) tl).1.getD k [] := rfl
          rw [e1, ih2 k hk']
          have e2 : i + 1 + k = i + (k + 1) := by omega
          rw [e2]
          rfl
      · rw [hunf]
        show ((processLine hd md ch != hd) ||
            (fixLinesGo md ch (some s) (i + 1) tl).2) = true ↔ _
        rw [Bool.or_eq_true, bne_iff_ne, ih3]
        constructor
        · rintro (hne | ⟨k, hk, hck, hpk⟩)
          · exact ⟨0, by simp, by simpa using hc, by simpa using hne⟩
          · refine ⟨k + 1, by simpa using hk, ?_, hpk⟩
            rw [show i + (k + 1) = i + 1 + k by omega]
            exact hck
        · rintro ⟨k, hk, hck, hpk⟩
          cases k with
          | zero =>
            left
            simpa using hpk
          | succ k =>
            right
            refine ⟨k, by simpa using hk, ?_, hpk⟩
            rw [show i + 1 + k = i + (k + 1) by omega]
            exact hck
    · have hcf : s.contains i = false := Bool.eq_false_iff.mpr hc
      have hnmem : i ∉ s := by simpa using hc
      have hunf : fixLinesGo md ch (some s) i (hd :: tl) =
          (hd :: (fixLinesGo md ch (some s) (i + 1) tl).1,
           (fixLinesGo md ch (some s) (i + 1) tl).2) := by
        simp [fixLinesGo, hnmem]
      refine ⟨?_, ?_, ?_⟩
      · rw [hunf]
        simp [ih1]
      · intro k hk
        rw [hunf]
        cases k with
        | zero => simp [hnmem]
        | succ k =>
          have hk' : k < tl.length := by simpa using hk
          have e1 : (hd :: (fixLinesGo md ch (some s) (i + 1) tl).1).getD (k + 1) [] =
              (fixLinesGo md ch (some s) (i + 1) tl).1.getD k [] := rfl
          rw [e1, ih2 k hk']
          have e2 : i + 1 + k = i + (k + 1) := by omega
          rw [e2]
          rfl
      · rw [hunf]
        show (fixLinesGo md ch (some s) (i + 1) tl).2 = true ↔ _
        rw [ih3]
        constructor
        · rintro ⟨k, hk, hck, hpk⟩
          refine ⟨k + 1, by simpa using hk, ?_, hpk⟩
          rw [show i + (k + 1) = i + 1 + k by omega]
          exact hck
        · rintro ⟨k, hk, hck, hpk⟩
          cases k with
          | zero =>
            rw [show i + 0 = i by omega, hcf] at hck
            exact absurd hck (by decide)
          | succ k =>
            refine ⟨k, by simpa using hk, ?_, hpk⟩
            rw [show i + 1 + k = i + (k + 1) by omega]
            exact hck

/-- Membership in one hunk's line-number range. -/
theorem mem_hunkLines (st c n : Nat) : n ∈ hunkLines st c ↔ st ≤ n ∧ n < st + c := by
  unfold hunkLines
  rw [List.mem_map]
  constructor
  · rintro ⟨k, hk, rfl⟩
    rw [List.mem_range] at hk
    omega
  · rintro ⟨h1, h2⟩
    exact ⟨n - st, List.mem_range.mpr (by omega), by omega⟩

/-- One step of the extractor's folding loop. -/
theorem changedLinesOfDiff_cons (hd : List Nat) (tl : List (List Nat)) :
    changedLinesOfDiff (hd :: tl) =
      (match parseHunkHeader hd with
       | some p => hunkLines p.1 p.2 ++ changedLinesOfDiff tl
       | none => changedLinesOfDiff tl) := rfl

/-- Membership in the extractor's result set: exactly the numbers lying in
the new-side range of some hunk header occurring in the diff. -/
theorem mem_changedLinesOfDiff (dl : List (List Nat)) (n : Nat) :
    n ∈ changedLinesOfDiff dl ↔
      ∃ l ∈ dl, ∃ st c, parseHunkHeader l = some (st, c) ∧ st ≤ n ∧ n < st + c := by
  induction dl with
  | nil => simp [changedLinesOfDiff]
  | cons hd tl ih =>
    rw [changedLinesOfDiff_cons]
    cases hp : parseHunkHeader hd with
    | none =>
      simp only [hp]
      rw [ih]
      constructor
      · rintro ⟨l, hl, st, c, hpl, h1, h2⟩
        exact ⟨l, List.mem_cons_of_mem hd hl, st, c, hpl, h1, h2⟩
      · rintro ⟨l, hl, st, c, hpl, h1, h2⟩
        rcases List.mem_cons.mp hl with rfl | hl'
        · rw [hp] at hpl
          simp at hpl
        · exact ⟨l, hl', st, c, hpl, h1, h2⟩
    | some p =>
      simp only [hp]
      rw [List.mem_append, ih, mem_hunkLines]
      constructor
      · rintro (⟨h1, h2⟩ | ⟨l, hl, st, c, hpl, h1, h2⟩)
        · exact ⟨hd, List.mem_cons_self hd tl, p.1, p.2, by rw [hp], h1, h2⟩
        · exact ⟨l, List.mem_cons_of_mem hd hl, st, c, hpl, h1, h2⟩
      · rintro ⟨l, hl, st, c, hpl, h1, h2⟩
        rcases List.mem_cons.mp hl with rfl | hl'
        · left
          rw [hp] at hpl
          have hpc : p = (st, c) := Option.some.inj hpl
          rw [hpc]
          exact ⟨h1, h2⟩
        · right
          exact ⟨l, hl', st, c, hpl, h1, h2⟩

/-- C1: with the Markdown flag set, a line whose content (after EOL
removal) is not composed entirely of whitespace and ends with two space
bytes has the strip characters removed only from the part before those
two spaces; the two spaces are kept verbatim and the original EOL marker
is reattached. -/
theorem claim_C1_markdown_hard_break (line : List Nat) (chars : Option (List Nat))
    (h1 : isspace (splitEol line).1 = false)
    (h2 : endsWith [32, 32] (splitEol line).1 = true) :
    processLine line true chars =
      rstrip chars ((splitEol line).1.take ((splitEol line).1.length - 2)) ++ [32, 32] ++
        (splitEol line).2 := by
  unfold processLine
  rw [if_pos (by rw [h1, h2]; rfl)]

/-- Witness for C1 at the spec's example: the line consisting of the bytes
of "text" and three trailing spaces plus LF maps to "text", two spaces,
LF. -/
theorem claim_C1_witness :
    processLine [116, 101, 120, 116, 32, 32, 32, 10] true none =
      [116, 101, 120, 116, 32, 32, 10] := by
  rw [claim_C1_markdown_hard_break [116, 101, 120, 116, 32, 32, 32, 10] none
    (by decide) (by decide)]
  decide

/-- C2: under a restriction set, exactly the lines whose 1-based number is
a member are processed, every other line passes through byte-for-byte in
its original position, the output has the input's length, and the changed
flag holds exactly when some selected line's bytes differ from its
input. -/
theorem claim_C2_restriction_set (lines : List (List Nat)) (md : Bool)
    (ch : Option (List Nat)) (s : List Nat) :
    (fixLines lines md ch (some s)).1.length = lines.length ∧
    (∀ k, k < lines.length → s.contains (k + 1) = false →
      (fixLines lines md ch (some s)).1.getD k [] = lines.getD k []) ∧
    (∀ k, k < lines.length → s.contains (k + 1) = true →
      (fixLines lines md ch (some s)).1.getD k [] = processLine (lines.getD k []) md ch) ∧
    ((fixLines lines md ch (some s)).2 = true ↔
      ∃ k, k < lines.length ∧ s.contains (k + 1) = true ∧
        processLine (lines.getD k []) md ch ≠ lines.getD k []) := by
  obtain ⟨h1, h2, h3⟩ := fixLinesGo_some md ch s lines 1
  refine ⟨h1, ?_, ?_, ?_⟩
  · intro k hk hcf
    show (fixLinesGo md ch (some s) 1 lines).1.getD k [] = lines.getD k []
    rw [h2 k hk, show 1 + k = k + 1 from by omega, hcf]
    simp
  · intro k hk hct
    show (fixLinesGo md ch (some s) 1 lines).1.getD k [] = processLine (lines.getD k []) md ch
    rw [h2 k hk, show 1 + k = k + 1 from by omega, hct]
    simp
  · show (fixLinesGo md ch (some s) 1 lines).2 = true ↔ _
    rw [h3]
    constructor
    · rintro ⟨k, hk, hc, hp⟩
      exact ⟨k, hk, by rwa [show k + 1 = 1 + k from by omega], hp⟩
    · rintro ⟨k, hk, hc, hp⟩
      exact ⟨k, hk, by rwa [show 1 + k = k + 1 from by omega], hp⟩

/-- Witness for C2 at the spec's example: three lines, restriction set
containing only line 2; line 2 is stripped, lines 1 and 3 pass through,
and the changed flag is reported. -/
theorem claim_C2_witness :
    (fixLines [[97, 32, 32, 10], [98, 32, 32, 10], [99, 32, 32, 10]] false none
      (some [2])).2 = true ∧
    (fixLines [[97, 32, 32, 10], [98, 32, 32, 10], [99, 32, 32, 10]] false none
      (some [2])).1.getD 0 [] = [97, 32, 32, 10] ∧
    (fixLines [[97, 32, 32, 10], [98, 32, 32, 10], [99, 32, 32, 10]] false none
      (some [2])).1.getD 1 [] = [98, 10] ∧
    (fixLines [[97, 32, 32, 10], [98, 32, 32, 10], [99, 32, 32, 10]] false none
      (some [2])).1.getD 2 [] = [99, 32, 32, 10] := by
  obtain ⟨-, hpass, hproc, hflag⟩ := claim_C2_restriction_set
    [[97, 32, 32, 10], [98, 32, 32, 10], [99, 32, 32, 10]] false none [2]
  refine ⟨?_, ?_, ?_, ?_⟩
  · exact hflag.mpr ⟨1, by decide, by decide, by decide⟩
  · rw [hpass 0 (by decide) (by decide)]
    decide
  · rw [hproc 1 (by decide) (by decide)]
    decide
  · rw [hpass 2 (by decide) (by decide)]
    decide

/-- C3: a number is in the Changed-Line Extractor's result exactly when
some line of the diff matches the hunk pattern with new-side start `st`
and count `c` and the number lies in the range from `st` to
`st + c - 1`; the example header with start 12 and count 5 yields lines
12 through 16, and an omitted count defaults to 1. -/
theorem claim_C3_hunk_parsing :
    (∀ (dl : List (List Nat)) (n : Nat),
      n ∈ changedLinesOfDiff dl ↔
        ∃ l ∈ dl, ∃ st c, parseHunkHeader l = some (st, c) ∧ st ≤ n ∧ n < st + c) ∧
    changedLinesOfDiff
      [[64, 64, 32, 45, 49, 48, 44, 51, 32, 43, 49, 50, 44, 53, 32, 64, 64]] =
      [12, 13, 14, 15, 16] ∧
    parseHunkHeader [64, 64, 32, 45, 49, 48, 32, 43, 49, 50, 32, 64, 64] = some (12, 1) := by
  refine ⟨fun dl n => mem_changedLinesOfDiff dl n, by decide, by decide⟩

/-- Witness for C3: line 14 is reported changed by the example header. -/
theorem claim_C3_witness :
    14 ∈ changedLinesOfDiff
      [[64, 64, 32, 45, 49, 48, 44, 51, 32, 43, 49, 50, 44, 53, 32, 64, 64]] :=
  (claim_C3_hunk_parsing.1 _ 14).mpr
    ⟨[64, 64, 32, 45, 49, 48, 44, 51, 32, 43, 49, 50, 44, 53, 32, 64, 64], by decide,
      12, 5, by decide, by decide, by decide⟩

/-- C4 counterexample: under the explicit strip set consisting of the
byte of the letter x, the all-whitespace line of one space plus LF is
not reduced to its EOL marker, so the claim fails for that StripPolicy. -/
theorem claim_C4_cex :
    isspace (splitEol [32, 10]).1 = true ∧
    processLine [32, 10] true (some [120]) ≠ (splitEol [32, 10]).2 := by
  decide

/-- C4 (amended): under the default (null) strip policy, a line whose
content consists entirely of whitespace is reduced to its EOL marker
alone, for every value of the Markdown flag. -/
theorem claim_C4_allspace_stripped (line : List Nat) (md : Bool)
    (h : (splitEol line).1.all pySpace = true) :
    processLine line md none = (splitEol line).2 := by
  rw [processLine_decomp]
  have hb : stripBody (splitEol line).1 md none = [] := by
    have hr : rstrip none (splitEol line).1 = [] :=
      rstrip_eq_nil none _
        (fun b hbm => by rw [stripPred_none]; exact List.all_eq_true.mp h b hbm)
    unfold stripBody
    by_cases hg : (md && !(isspace (splitEol line).1) &&
        endsWith [32, 32] (splitEol line).1) = true
    · obtain ⟨-, hns, hend⟩ := guard_split md _ hg
      obtain ⟨b, hbmem, hbf⟩ := exists_not_space _ hns hend
      have hbt := List.all_eq_true.mp h b hbmem
      rw [hbf] at hbt
      exact absurd hbt (by decide)
    · rw [if_neg hg]
      exact hr
  rw [hb]
  rfl

/-- Witness for C4 at a CRLF line of one space and one tab. -/
theorem claim_C4_witness :
    (splitEol [32, 9, 13, 10]).1.all pySpace = true ∧
    processLine [32, 9, 13, 10] true none = [13, 10] := by
  constructor
  · decide
  · rw [claim_C4_allspace_stripped [32, 9, 13, 10] true (by decide)]
    decide

/-- C5 counterexample: stripping the byte of the letter x from the LF
line built of the bytes a, CR, x exposes the carriage return, so the
re-detected EOL marker of the output is CRLF while the input's was LF. -/
theorem claim_C5_cex :
    (splitEol (processLine [97, 13, 120, 10] false (some [120]))).2 ≠
      (splitEol [97, 13, 120, 10]).2 := by
  decide

/-- C5 (amended): for every line, flag and policy the original EOL bytes
are reattached verbatim after the stripped content; under the default
(null) strip policy the re-detected EOL marker of the output moreover
equals the input's (CRLF stays CRLF, LF stays LF, missing stays
missing). -/
theorem claim_C5_eol_preserved :
    (∀ (line : List Nat) (md : Bool) (ch : Option (List Nat)),
      ∃ c', processLine line md ch = c' ++ (splitEol line).2) ∧
    (∀ (line : List Nat) (md : Bool),
      (splitEol (processLine line md none)).2 = (splitEol line).2) := by
  constructor
  · intro line md ch
    exact ⟨stripBody (splitEol line).1 md ch, processLine_decomp line md ch⟩
  · intro line md
    rw [splitEol_processLine_none]

/-- Witness for C5: the LF marker of a processed Markdown line is
re-detected unchanged. -/
theorem claim_C5_witness :
    (splitEol (processLine [116, 32, 10] true none)).2 = (splitEol [116, 32, 10]).2 :=
  claim_C5_eol_preserved.2 [116, 32, 10] true

/-- C6 counterexample: with the explicit strip set consisting of the byte
of the letter x, rewriting the output of the rewriter flags a further
change, so the rewriter is not idempotent for every StripPolicy. -/
theorem claim_C6_cex :
    (fixLines (fixLines [[97, 120, 13, 120, 10]] false (some [120]) none).1
      false (some [120]) none).2 = true := by
  decide

/-- C6 (amended): under the default (null) strip policy the Line Rewriter
is idempotent: applied to its own output with no restriction set it
returns that output unchanged and reports no further change, for every
line sequence and Markdown flag. -/
theorem claim_C6_idempotent_default (lines : List (List Nat)) (md : Bool) :
    fixLines (fixLines lines md none none).1 md none none =
      ((fixLines lines md none none).1, false) := by
  have h1 : fixLines lines md none none =
      (lines.map (fun l => processLine l md none),
       lines.any (fun l => processLine l md none != l)) := fixLinesGo_none md none 1 lines
  rw [h1]
  show fixLines (lines.map (fun l => processLine l md none)) md none none =
    (lines.map (fun l => processLine l md none), false)
  unfold fixLines
  rw [fixLinesGo_none md none 1 (lines.map (fun l => processLine l md none))]
  obtain ⟨ha, hb⟩ := fixLines_none_idem_aux md lines
  rw [ha, hb]

/-- Witness for C6 on a one-line Markdown file. -/
theorem claim_C6_witness :
    fixLines (fixLines [[97, 32, 10]] true none none).1 true none none =
      ((fixLines [[97, 32, 10]] true none none).1, false) :=
  claim_C6_idempotent_default [[97, 32, 10]] true

/-- C7: when the diff collaborator exits with a nonzero status, the
Changed-Line Extractor returns the empty set instead of propagating an
error. -/
theorem claim_C7_failure_empty (code : Nat) :
    get_changed_lines (Except.error code) = [] := rfl

/-- Witness for C7 at exit status 1. -/
theorem claim_C7_witness : get_changed_lines (Except.error 1) = [] :=
  claim_C7_failure_empty 1

/-- C8: with changed-lines-only mode enabled, when the extractor yields
the empty set the file fixer writes nothing and reports the file as not
fixed. -/
theorem claim_C8_empty_set_untouched (diff : Except Nat (List (List Nat)))
    (lines : List (List Nat)) (md : Bool) (ch : Option (List Nat))
    (h : get_changed_lines diff = []) :
    fixFile true (get_changed_lines diff) lines md ch = (none, false) := by
  rw [h]
  rfl

/-- Witness for C8 with a failing diff invocation and a one-line file
that would otherwise be stripped. -/
theorem claim_C8_witness :
    fixFile true (get_changed_lines (Except.error 1)) [[97, 32, 10]] false none =
      (none, false) :=
  claim_C8_empty_set_untouched (Except.error 1) [[97, 32, 10]] false none rfl

/-- C9: an explicit strip set removes exactly the maximal trailing run of
member bytes (the remainder never ends in a member), the default policy
removes exactly the maximal trailing run of whitespace, and the spec's
two examples compute as stated: with strip set of the byte x the line
abcxxx plus LF becomes abc plus LF, and a space-trailing line is left
untouched. -/
theorem claim_C9_strip_semantics :
    (∀ (cs l : List Nat),
      (∃ t, l = rstrip (some cs) l ++ t ∧ ∀ b ∈ t, cs.contains b = true) ∧
      (∀ ys b, rstrip (some cs) l = ys ++ [b] → cs.contains b = false)) ∧
    (∀ l : List Nat,
      (∃ t, l = rstrip none l ++ t ∧ ∀ b ∈ t, pySpace b = true) ∧
      (∀ ys b, rstrip none l = ys ++ [b] → pySpace b = false)) ∧
    processLine [97, 98, 99, 120, 120, 120, 10] false (some [120]) = [97, 98, 99, 10] ∧
    processLine [97, 98, 32, 32, 10] false (some [120]) = [97, 98, 32, 32, 10] := by
  refine ⟨?_, ?_, by decide, by decide⟩
  · intro cs l
    constructor
    · exact rstrip_decomp (some cs) l
    · intro ys b h
      exact rstrip_last (some cs) l ys b h
  · intro l
    constructor
    · exact rstrip_decomp none l
    · intro ys b h
      exact rstrip_last none l ys b h

/-- Witness for C9: the strip-set decomposition at a concrete line whose
trailing run avoids the set. -/
theorem claim_C9_witness :
    ∃ t, [97, 32, 32] = rstrip (some [120]) [97, 32, 32] ++ t ∧
      ∀ b ∈ t, ([120] : List Nat).contains b = true :=
  (claim_C9_strip_semantics.1 [120] [97, 32, 32]).1

/-- C10: the processed line is never longer than the input line, and the
bytes before the reattached EOL marker form a subsequence of the input's
content, i.e. they arise only by deleting bytes. -/
theorem claim_C10_output_not_longer (line : List Nat) (md : Bool) (ch : Option (List Nat)) :
    (processLine line md ch).length ≤ line.length ∧
    ∃ c', processLine line md ch = c' ++ (splitEol line).2 ∧
      List.Sublist c' (splitEol line).1 := by
  have hsub : List.Sublist (stripBody (splitEol line).1 md ch) (splitEol line).1 := by
    unfold stripBody
    by_cases hg : (md && !(isspace (splitEol line).1) &&
        endsWith [32, 32] (splitEol line).1) = true
    · rw [if_pos hg]
      obtain ⟨-, -, hend⟩ := guard_split md _ hg
      obtain ⟨s, hs⟩ := (endsWith_iff [32, 32] _).mp hend
      have htake : (splitEol line).1.take ((splitEol line).1.length - 2) = s := by
        rw [show (2 : Nat) = ([32, 32] : List Nat).length from rfl]
        exact take_of_endsWith [32, 32] _ s hs
      rw [htake, hs]
      apply List.Sublist.append ?_ (List.Sublist.refl [32, 32])
      obtain ⟨t, hdec, -⟩ := rstrip_decomp ch s
      have h2 : List.Sublist (rstrip ch s) (rstrip ch s ++ t) :=
        List.sublist_append_left _ _
      rw [← hdec] at h2
      exact h2
    · rw [if_neg hg]
      obtain ⟨t, hdec, -⟩ := rstrip_decomp ch (splitEol line).1
      have h2 : List.Sublist (rstrip ch (splitEol line).1)
          (rstrip ch (splitEol line).1 ++ t) := List.sublist_append_left _ _
      rw [← hdec] at h2
      exact h2
  refine ⟨?_, stripBody (splitEol line).1 md ch, processLine_decomp line md ch, hsub⟩
  rw [processLine_decomp]
  have hlen := List.Sublist.length_le hsub
  calc (stripBody (splitEol line).1 md ch ++ (splitEol line).2).length
      = (stripBody (splitEol line).1 md ch).length + (splitEol line).2.length :=
        List.length_append _ _
    _ ≤ (splitEol line).1.length + (splitEol line).2.length := by omega
    _ = ((splitEol line).1 ++ (splitEol line).2).length := (List.length_append _ _).symm
    _ = line.length := by rw [splitEol_append]

/-- Witness for C10 at a concrete stripped line. -/
theorem claim_C10_witness :
    (processLine [97, 32, 32, 10] false none).length ≤
      ([97, 32, 32, 10] : List Nat).length :=
  (claim_C10_output_not_longer [97, 32, 32, 10] false none).1
